import Mathlib

/-!
Verification of `mesh2inp.py`, a converter from a sectioned ASCII mesh file to
Calculix/Abaqus input decks.  The Python source is shallowly embedded: each
Python function becomes a Lean definition over `List`/`Option`, with Python
runtime errors (IndexError, ValueError, unpacking failures) modelled as `none`.
Output files are modelled as pairs `(opened path, list of written lines)`,
one list entry per `write` call (each source `write` emits one line).
-/

namespace Mesh2Inp

/-- Monadic map over `Option`, modelling a Python comprehension in which the
per-item computation can raise: the first raising item aborts the whole run. -/
def mapO {α β : Type} (f : α → Option β) : List α → Option (List β)
  | [] => some []
  | a :: l => do
    let b ← f a
    let r ← mapO f l
    pure (b :: r)

/-- Monadic left fold over `Option`, modelling a Python `for` loop mutating an
accumulator, where the body can raise. -/
def foldO {α β : Type} (f : β → α → Option β) : β → List α → Option β
  | b, [] => some b
  | b, a :: l => do
    let b2 ← f b a
    foldO f b2 l

/-- Python `enumerate(xs, start)`: pairs each item with its index. -/
def pyEnum {α : Type} (start : Int) : List α → List (Int × α)
  | [] => []
  | a :: l => (start, a) :: pyEnum (start + 1) l

/-- Python slice `l[start:stop]` (step 1): negative bounds count from the end,
out-of-range bounds are clamped, and slicing never raises. -/
def pySlice {α : Type} (l : List α) (start stop : Int) : List α :=
  let n : Int := l.length
  let s : Int := if start < 0 then max (n + start) 0 else min start n
  let e : Int := if stop < 0 then max (n + stop) 0 else min stop n
  (l.drop s.toNat).take (e - s).toNat

/-- Python `str.strip()` with no argument: remove leading and trailing
whitespace.  Implemented over the character list so that it evaluates. -/
def pyStrip (s : String) : String :=
  String.mk (((s.data.dropWhile Char.isWhitespace).reverse.dropWhile Char.isWhitespace).reverse)

/-- Python `str.startswith(pre)`. -/
def pyStartsWith (s pre : String) : Bool :=
  pre.data.isPrefixOf s.data

/-- Python `str.endswith(suffix)`. -/
def pyEndsWith (s suffix : String) : Bool :=
  suffix.data.isSuffixOf s.data

/-- Helper for `pySplit`: cut a character list into maximal runs of
non-whitespace characters, accumulating the current (reversed) run. -/
def wordsAux (p : Char → Bool) : List Char → List Char → List (List Char)
  | [], acc => if acc = [] then [] else [acc.reverse]
  | c :: cs, acc =>
    if p c then
      (if acc = [] then wordsAux p cs [] else acc.reverse :: wordsAux p cs [])
    else wordsAux p cs (c :: acc)

/-- Python `str.split()` with no argument: split on whitespace runs, dropping
empty fields. -/
def pySplit (s : String) : List String :=
  (wordsAux Char.isWhitespace s.data []).map String.mk

/-- The numeric value of a decimal digit character, `none` otherwise. -/
def digitVal? (c : Char) : Option Nat :=
  if c = '0' then some 0 else if c = '1' then some 1 else if c = '2' then some 2
  else if c = '3' then some 3 else if c = '4' then some 4 else if c = '5' then some 5
  else if c = '6' then some 6 else if c = '7' then some 7 else if c = '8' then some 8
  else if c = '9' then some 9 else none

/-- Fold a digit string into a natural number, failing on non-digits. -/
def natDigitsAux : List Char → Nat → Option Nat
  | [], acc => some acc
  | c :: cs, acc => (digitVal? c).bind (fun d => natDigitsAux cs (acc * 10 + d))

/-- A non-empty all-digit character list, as a natural number. -/
def natDigits (cs : List Char) : Option Nat :=
  match cs with
  | [] => none
  | _ => natDigitsAux cs 0

/-- Python `int(tok)` on the plain decimal integer literals used by the mesh
format: an optional minus sign followed by one or more digits.  (Python also
accepts `+`, surrounding whitespace and underscores; those forms do not occur
in the inputs considered here and are mapped to a parse failure.) -/
def pyInt? (s : String) : Option Int :=
  match s.data with
  | '-' :: rest => (natDigits rest).map (fun n => -(n : Int))
  | cs => (natDigits cs).map (fun n => (n : Int))

/-- Helper for `parseFloat?`: split a character list at every `'.'`, keeping
empty segments. -/
def splitDotAux : List Char → List Char → List (List Char)
  | [], acc => [acc.reverse]
  | c :: rest, acc =>
    if c = '.' then acc.reverse :: splitDotAux rest []
    else splitDotAux rest (c :: acc)

/-- A parsed floating value of the mesh format, represented exactly as the
signed decimal fixed-point number `num / 10 ^ shift`.  The mesh format carries
plain decimal literals, which this type represents without loss; Python's
intermediate binary-double representation is abstracted away. -/
structure PyFloat where
  num : Int
  shift : Nat
deriving DecidableEq

/-- The unsigned part of `float(tok)`: digits with an optional single dot. -/
def parseFloatChars (cs : List Char) : Option PyFloat :=
  match splitDotAux cs [] with
  | [a] => (natDigits a).map (fun n => ⟨(n : Int), 0⟩)
  | [a, b] => do
    let ip ← natDigits a
    let fp ← natDigits b
    pure ⟨((ip * 10 ^ b.length + fp : Nat) : Int), b.length⟩
  | _ => none

/-- Python `float(tok)` on the plain decimal literals used by the mesh format
(optional sign, digits, optional fractional part).  Exotic float syntax
(exponents, `inf`, leading/trailing dot) is out of scope of the inputs
considered here and is mapped to a parse failure. -/
def parseFloat? (s : String) : Option PyFloat :=
  match s.data with
  | '-' :: rest => (parseFloatChars rest).map (fun v => ⟨-v.num, v.shift⟩)
  | cs => parseFloatChars cs

/-- The two zero-padded digits of `k % 100`, as used by fixed-point formatting. -/
def twoDigits (k : Nat) : String :=
  String.mk [Nat.digitChar (k / 10 % 10), Nat.digitChar (k % 10)]

/-- Python `f-string` formatting `{x:.2f}`: round `x` to a whole number of
hundredths, then print sign, integer part, a dot, and exactly two fractional
digits.  `scaled` is `⌊100 * v + 1/2⌋` computed by floor division.  (Python
rounds the nearest binary double and breaks ties to even; this model rounds
the exact decimal value half-up.  Both always print exactly two digits after
the decimal point, which is what is relied on.) -/
def formatFixed2 (v : PyFloat) : String :=
  let scaled : Int := Int.fdiv (200 * v.num + 10 ^ v.shift) (2 * 10 ^ v.shift)
  let m : Nat := scaled.natAbs
  (if scaled < 0 then "-" else "") ++ toString (m / 100) ++ "." ++ twoDigits (m % 100)

/-- Structural-recursion engine for `chunksPos`: the fuel argument bounds the
number of chunks still to be produced and is always at least the list length,
so the middle branch is unreachable. -/
def chunksPosAux {α : Type} (c : Nat) : Nat → List α → List (List α)
  | _, [] => []
  | 0, _ :: _ => []
  | fuel + 1, x :: xs => (x :: xs).take (c + 1) :: chunksPosAux c fuel ((x :: xs).drop (c + 1))

/-- Chunking with positive width `c + 1`: the helper realising `chunks` below. -/
def chunksPos {α : Type} (c : Nat) (l : List α) : List (List α) :=
  chunksPosAux c l.length l

lemma chunksPosAux_congr {α : Type} (c : Nat) :
    ∀ (fuel1 : Nat) {fuel2 : Nat} {l : List α}, l.length ≤ fuel1 → l.length ≤ fuel2 →
      chunksPosAux c fuel1 l = chunksPosAux c fuel2 l := by
  intro fuel1
  induction fuel1 with
  | zero =>
    intro fuel2 l h1 h2
    have : l = [] := List.eq_nil_of_length_eq_zero (Nat.le_zero.mp h1)
    subst this
    cases fuel2 <;> rfl
  | succ f ih =>
    intro fuel2 l h1 h2
    cases l with
    | nil => cases fuel2 <;> rfl
    | cons x xs =>
      cases fuel2 with
      | zero => simp at h2
      | succ g =>
        show (x :: xs).take (c + 1) :: chunksPosAux c f ((x :: xs).drop (c + 1))
          = (x :: xs).take (c + 1) :: chunksPosAux c g ((x :: xs).drop (c + 1))
        have hd : ((x :: xs).drop (c + 1)).length ≤ f := by
          rw [List.length_drop]
          simp only [List.length_cons] at h1 ⊢
          omega
        have hd2 : ((x :: xs).drop (c + 1)).length ≤ g := by
          rw [List.length_drop]
          simp only [List.length_cons] at h2 ⊢
          omega
        rw [ih hd hd2]

/-- Source `chunks(sequence, count)`: yields `sequence[i:i+count]` for
`i = 0, count, 2*count, …`; raises `ValueError` when `count < 1`. -/
def chunks {α : Type} (sequence : List α) (count : Int) : Option (List (List α)) :=
  if count < 1 then none
  else some (chunksPos (count.toNat - 1) sequence)

/-- The sorted list of a multiset, by structural insertion sort (so that it
evaluates inside the kernel). -/
def insortM (s : Multiset Int) : List Int :=
  Quot.liftOn s (fun l => List.insertionSort (· ≤ ·) l) (fun _ _ h =>
    List.eq_of_perm_of_sorted
      ((List.perm_insertionSort _ _).trans (h.trans (List.perm_insertionSort _ _).symm))
      (List.sorted_insertionSort _ _) (List.sorted_insertionSort _ _))

/-- Python `sorted(list(s))` on a set of integers: the ascending list of the
set's members. -/
def finsetSorted (s : Finset Int) : List Int := insortM s.val

/-- One step of boundary-set accumulation: `edgeboundaries[key].add(v)` on a
`defaultdict(set)`, preserving first-insertion key order. -/
def ebAdd (acc : List (Int × Finset Int)) (key v : Int) : List (Int × Finset Int) :=
  match acc with
  | [] => [(key, {v})]
  | (k, s) :: rest => if k = key then (k, insert v s) :: rest else (k, s) :: ebAdd rest key v

/-- Dictionary lookup in the insertion-ordered association list that models
`edgeboundaries`. -/
def ebLookup (ebs : List (Int × Finset Int)) (tag : Int) : Option (Finset Int) :=
  (ebs.find? (fun p => p.1 == tag)).map Prod.snd

/-- Token `i` of a split line, parsed as a Python `int` — `int(e[i])`. -/
def tokInt (e : List String) (i : Nat) : Option Int :=
  (e.get? i).bind pyInt?

/-- Source loop body over `edges`: `key = int(e[0]); if key > 100:
edgeboundaries[key].add(int(e[2])); edgeboundaries[key].add(int(e[3]))`. -/
def edgeStep (acc : List (Int × Finset Int)) (e : List String) : Option (List (Int × Finset Int)) := do
  let key ← tokInt e 0
  if key > 100 then do
    let a ← tokInt e 2
    let b ← tokInt e 3
    pure (ebAdd (ebAdd acc key a) key b)
  else pure acc

/-- The boundary extraction loop of `read_mesh` (source lines 45–51). -/
def edgeBoundaries (edges : List (List String)) : Option (List (Int × Finset Int)) :=
  foldO edgeStep [] edges

/-- Source lines 22–25: strip every line, then drop the lines that start
with `'#'`. -/
def preprocess (raw : List String) : List String :=
  (raw.map pyStrip).filter (fun ln => !pyStartsWith ln "#")

/-- `lines.index(kw) + 2`: position of the first data line of a section
(`lines.index` raises `ValueError` when the keyword is absent). -/
def sectionIdx (lines : List String) (kw : String) : Option Nat :=
  (List.findIdx? (fun ln => ln == kw) lines).map (fun i => i + 2)

/-- The data lines of a section: find the keyword, read the count on the next
line with `int(...)`, and slice out that many following lines. -/
def sectionData (lines : List String) (kw : String) : Option (List String) := do
  let i ← sectionIdx lines kw
  let countTok ← lines.get? (i - 1)
  let n ← pyInt? countTok
  pure (pySlice lines (i : Int) ((i : Int) + n))

/-- `points = [tuple(float(j) for j in ln.split()) for ln in lines[pi:pi+numpoints]]`. -/
def readPoints (lines : List String) : Option (List (List PyFloat)) :=
  (sectionData lines "points").bind (mapO (fun ln => mapO parseFloat? (pySplit ln)))

/-- `elements = [tuple(int(j) for j in ln.split()) for ln in lines[si:si+numelements]]`. -/
def readElements (lines : List String) : Option (List (List Int)) :=
  (sectionData lines "surfaceelements").bind (mapO (fun ln => mapO pyInt? (pySplit ln)))

/-- `(int(m[0]), m[1])` for one materials line. -/
def parseMaterial (m : List String) : Option (Int × String) := do
  let idTok ← m.get? 0
  let idVal ← pyInt? idTok
  let nameTok ← m.get? 1
  pure (idVal, nameTok)

/-- `materials = [(int(m[0]), m[1]) for m in [ln.split() for ln in ...]]`. -/
def readMaterials (lines : List String) : Option (List (Int × String)) :=
  (sectionData lines "materials").bind (fun ds => mapO parseMaterial (ds.map pySplit))

/-- The `edgesegmentsgi2` section: split each data line and run the boundary
accumulation loop. -/
def readEdges (lines : List String) : Option (List (Int × Finset Int)) :=
  (sectionData lines "edgesegmentsgi2").bind (fun ds => edgeBoundaries (ds.map pySplit))

/-- Source `read_mesh`: preprocess the raw lines, then extract the four
sections, each located independently by its keyword's first occurrence. -/
def read_mesh (raw : List String) :
    Option (List (List PyFloat) × List (List Int) × List (Int × String) × List (Int × Finset Int)) := do
  let lines := preprocess raw
  let points ← readPoints lines
  let elements ← readElements lines
  let materials ← readMaterials lines
  let ebs ← readEdges lines
  pure (points, elements, materials, ebs)

/-- One node record `f'{n}, {x:.2f}, {y:.2f}, {z:.2f}'`; the tuple unpacking
`(x, y, z)` raises unless the point has exactly three coordinates. -/
def coordRecord (n : Int) (p : List PyFloat) : Option String :=
  match p with
  | [x, y, z] =>
    some (toString n ++ ", " ++ formatFixed2 x ++ ", " ++ formatFixed2 y ++ ", " ++ formatFixed2 z)
  | _ => none

/-- `nset.update(set(e[5:5+e[4]]))` for one matching element. -/
def nsetStep (acc : Finset Int) (e : List Int) : Option (Finset Int) := do
  let cnt ← e.get? 4
  pure (acc ∪ (pySlice e 5 (5 + cnt)).toFinset)

/-- The node set of one material: filter the elements on `el[1] == matnum`
(evaluating `el[1]` on every element, as the source comprehension does), then
union in each matching element's `e[5:5+e[4]]`. -/
def nsetFor (elements : List (List Int)) (matnum : Int) : Option (Finset Int) := do
  let checked ← mapO (fun el => (el.get? 1).map (fun m => (el, m))) elements
  foldO nsetStep ∅ ((checked.filter (fun p => p.2 == matnum)).map Prod.fst)

/-- The `*NSET` block emitted for one material: a label line followed by the
sorted node ids wrapped 16 per line, each line prefixed by two spaces. -/
def nsetBlock (elements : List (List Int)) (matnum : Int) (matname : String) :
    Option (List String) := do
  let nset ← nsetFor elements matnum
  let subs ← chunks (finsetSorted nset) 16
  pure (("*NSET,NSET=N" ++ matname)
    :: subs.map (fun sub => "  " ++ String.intercalate ", " (sub.map toString)))

/-- The `*NSET` block emitted for one edge-boundary tag. -/
def edgeBlock (k : Int) (s : Finset Int) : Option (List String) := do
  let subs ← chunks (finsetSorted s) 16
  pure (("*NSET,NSET=Nedge" ++ toString k)
    :: subs.map (fun sub => "  " ++ String.intercalate ", " (sub.map toString)))

/-- Source `write_nodes` (lines 62–88): normalize the file name, then emit the
header, one coordinate record per point numbered from 1, one node-set block per
material, and one node-set block per edge-boundary tag.  Returns the opened
path together with the written lines. -/
def write_nodes (name : String) (points : List (List PyFloat)) (elements : List (List Int))
    (materials : List (Int × String)) (edge_boundaries : List (Int × Finset Int)) :
    Option (String × List String) := do
  let outName := if pyEndsWith name ".inp" then name else name ++ ".inp"
  let nodeLines ← mapO (fun p => coordRecord p.1 p.2) (pyEnum 1 points)
  let matBlocks ← mapO (fun m => nsetBlock elements m.1 m.2) materials
  let edgeBlocks ← mapO (fun kv => edgeBlock kv.1 kv.2) edge_boundaries
  pure (outName,
    ["**", "** " ++ outName, "** Gegenereerd door mesh2inp.py.", "**", "*NODE,NSET=Nall"]
      ++ nodeLines ++ matBlocks.flatten ++ edgeBlocks.flatten)

/-- The loop body of the connectivity block (source lines 101–108): read
`cnt = e[4]`, slice `nodes = e[5:5+cnt]`, and when `cnt == 6` emit the record
`n, nodes[0], nodes[1], nodes[2], nodes[5], nodes[3], nodes[4]`.  The outer
`Option` is a raised error; the inner `Option` is "line emitted or not". -/
def connLine (n : Int) (e : List Int) : Option (Option String) := do
  let cnt ← e.get? 4
  let nodes := pySlice e 5 (5 + cnt)
  if cnt = 6 then do
    let a ← nodes.get? 0
    let b ← nodes.get? 1
    let c ← nodes.get? 2
    let d ← nodes.get? 3
    let e2 ← nodes.get? 4
    let f ← nodes.get? 5
    pure (some (String.intercalate ", " ([n, a, b, c, f, d, e2].map toString)))
  else pure none

/-- All connectivity lines of the element deck, in element order. -/
def connectivityLines (elements : List (List Int)) : Option (List String) :=
  (mapO (fun p => connLine p.1 p.2) (pyEnum 1 elements)).map (fun lns => lns.filterMap id)

/-- Spec-side restatement of the claimed connectivity rule, written from the
claim's words for comparison with `connLine`: an element whose 5th field (node
count) is 6 contributes the line `n, a, b, c, f, d, e` built from its six
trailing node ids `(a, b, c, d, e, f)`; any other node count contributes
nothing. -/
def connLineSpec (n : Int) (e : List Int) : Option String :=
  if e.get? 4 = some 6 then
    match (e.drop 5).take 6 with
    | [a, b, c, d, e5, f] =>
      some (String.intercalate ", " ([n, a, b, c, f, d, e5].map toString))
    | _ => none
  else none

/-- `elnums = [n for n, el in enumerate(elements, start=1) if el[1] == matnum]`:
`el[1]` is evaluated for every element, and the surviving 1-based indices keep
enumeration order. -/
def matchingElnums (elements : List (List Int)) (matnum : Int) : Option (List Int) := do
  let checked ← mapO (fun p => (p.2.get? 1).map (fun m => (p.1, m))) (pyEnum 1 elements)
  pure ((checked.filter (fun q => q.2 == matnum)).map Prod.fst)

/-- The `*ELSET` block emitted for one material: a label line followed by the
matching element numbers wrapped 16 per line, each line ending in a comma. -/
def elsetBlock (elements : List (List Int)) (matnum : Int) (matname : String) :
    Option (List String) := do
  let elnums ← matchingElnums elements matnum
  let subs ← chunks elnums 16
  pure (("*ELSET,ELSET=E" ++ matname)
    :: subs.map (fun sub => String.intercalate ", " (sub.map toString) ++ ","))

/-- Source `write_elements` (lines 91–116): emit the header (naming the file
exactly as given, with no extension normalization), the `*ELEMENT` type line,
the reordered connectivity records, and one `*ELSET` block per material. -/
def write_elements (name : String) (elements : List (List Int))
    (materials : List (Int × String)) : Option (String × List String) := do
  let conn ← connectivityLines elements
  let elsets ← mapO (fun m => elsetBlock elements m.1 m.2) materials
  pure (name,
    ["**", "** " ++ name, "** Gegenereerd door mesh2inp.py.", "**", "*ELEMENT, TYPE=S6, ELSET=Eall"]
      ++ conn ++ elsets.flatten)

/-- The conversion pipeline of `main` (minus CLI and logging): read the mesh,
write the node deck, write the element deck. -/
def convert (raw : List String) (nodeName elemName : String) :
    Option ((String × List String) × (String × List String)) := do
  let (points, elements, materials, ebs) ← read_mesh raw
  let nf ← write_nodes nodeName points elements materials ebs
  let ef ← write_elements elemName elements materials
  pure (nf, ef)

/-! ### Generic lemmas about the embedding combinators -/

lemma mapO_nil {α β : Type} (f : α → Option β) : mapO f [] = some [] := rfl

lemma mapO_cons {α β : Type} (f : α → Option β) (a : α) (l : List α) :
    mapO f (a :: l) = (f a).bind (fun b => (mapO f l).bind (fun r => some (b :: r))) := rfl

lemma foldO_nil {α β : Type} (f : β → α → Option β) (b : β) : foldO f b [] = some b := rfl

lemma foldO_cons {α β : Type} (f : β → α → Option β) (b : β) (a : α) (l : List α) :
    foldO f b (a :: l) = (f b a).bind (fun b2 => foldO f b2 l) := rfl

lemma mapO_length {α β : Type} (f : α → Option β) :
    ∀ {l : List α} {r : List β}, mapO f l = some r → r.length = l.length := by
  intro l
  induction l with
  | nil => intro r h; simp [mapO_nil] at h; subst h; rfl
  | cons a l ih =>
    intro r h
    rw [mapO_cons] at h
    simp only [Option.bind_eq_some] at h
    obtain ⟨b, hb, r', hr', hcons⟩ := h
    simp only [Option.some.injEq] at hcons
    subst hcons
    simp [ih hr']

lemma mapO_mem {α β : Type} (f : α → Option β) :
    ∀ {l : List α} {r : List β}, mapO f l = some r → ∀ b : β, b ∈ r ↔ ∃ a ∈ l, f a = some b := by
  intro l
  induction l with
  | nil => intro r h b; simp [mapO_nil] at h; subst h; simp
  | cons a l ih =>
    intro r h b
    rw [mapO_cons] at h
    simp only [Option.bind_eq_some] at h
    obtain ⟨b0, hb0, r', hr', hcons⟩ := h
    simp only [Option.some.injEq] at hcons
    subst hcons
    simp only [List.mem_cons, ih hr' b]
    constructor
    · rintro (rfl | ⟨a', ha', hfa'⟩)
      · exact ⟨a, Or.inl rfl, hb0⟩
      · exact ⟨a', Or.inr ha', hfa'⟩
    · rintro ⟨a', (rfl | ha'), hfa'⟩
      · left; rw [hb0] at hfa'; exact (Option.some.injEq _ _ ▸ hfa').symm
      · right; exact ⟨a', ha', hfa'⟩

lemma mapO_get? {α β : Type} (f : α → Option β) :
    ∀ {l : List α} {r : List β}, mapO f l = some r → ∀ i : Nat, r.get? i = (l.get? i).bind f := by
  intro l
  induction l with
  | nil => intro r h i; simp [mapO_nil] at h; subst h; simp
  | cons a l ih =>
    intro r h i
    rw [mapO_cons] at h
    simp only [Option.bind_eq_some] at h
    obtain ⟨b, hb, r', hr', hcons⟩ := h
    simp only [Option.some.injEq] at hcons
    subst hcons
    cases i with
    | zero => simp [hb]
    | succ i => simpa using ih hr' i

lemma mapO_eq_none {α β : Type} (f : α → Option β) :
    ∀ {l : List α} {a : α}, a ∈ l → f a = none → mapO f l = none := by
  intro l
  induction l with
  | nil => intro a ha; simp at ha
  | cons x l ih =>
    intro a ha hfa
    rcases List.mem_cons.mp ha with rfl | ha'
    · rw [mapO_cons, hfa]; rfl
    · rw [mapO_cons]
      cases hx : f x with
      | none => rfl
      | some b => simp [ih ha' hfa]

/-! ### `pyEnum` lemmas -/

lemma pyEnum_nil {α : Type} (s : Int) : pyEnum s ([] : List α) = [] := rfl

lemma pyEnum_cons {α : Type} (s : Int) (a : α) (l : List α) :
    pyEnum s (a :: l) = (s, a) :: pyEnum (s + 1) l := rfl

lemma pyEnum_length {α : Type} : ∀ (l : List α) (s : Int), (pyEnum s l).length = l.length := by
  intro l
  induction l with
  | nil => intro s; rfl
  | cons a l ih => intro s; simp [pyEnum_cons, ih]

lemma pyEnum_get? {α : Type} :
    ∀ (l : List α) (s : Int) (i : Nat),
      (pyEnum s l).get? i = (l.get? i).map (fun a => (s + i, a)) := by
  intro l
  induction l with
  | nil => intro s i; simp [pyEnum_nil]
  | cons a l ih =>
    intro s i
    cases i with
    | zero => simp [pyEnum_cons]
    | succ i =>
      rw [pyEnum_cons]
      simp only [List.get?_cons_succ]
      rw [ih]
      congr 1
      funext x
      simp only [Prod.mk.injEq, and_true]
      push_cast
      ring

lemma pyEnum_mem_le {α : Type} :
    ∀ {l : List α} {s : Int} {p : Int × α}, p ∈ pyEnum s l → s ≤ p.1 := by
  intro l
  induction l with
  | nil => intro s p h; simp [pyEnum_nil] at h
  | cons a l ih =>
    intro s p h
    rw [pyEnum_cons, List.mem_cons] at h
    rcases h with rfl | h
    · exact le_refl _
    · have := ih h; omega

lemma pyEnum_pairwise {α : Type} :
    ∀ (l : List α) (s : Int), List.Pairwise (fun p q => p.1 < q.1) (pyEnum s l) := by
  intro l
  induction l with
  | nil => intro s; simp [pyEnum_nil]
  | cons a l ih =>
    intro s
    rw [pyEnum_cons]
    refine List.Pairwise.cons ?_ (ih (s + 1))
    intro q hq
    have := pyEnum_mem_le hq
    simp only
    omega

lemma pyEnum_mem_of_mem {α : Type} :
    ∀ {l : List α} {a : α} (s : Int), a ∈ l → ∃ n : Int, (n, a) ∈ pyEnum s l := by
  intro l
  induction l with
  | nil => intro a s h; simp at h
  | cons x l ih =>
    intro a s h
    rcases List.mem_cons.mp h with rfl | h'
    · exact ⟨s, by simp [pyEnum_cons]⟩
    · obtain ⟨n, hn⟩ := ih (s + 1) h'
      exact ⟨n, by simp [pyEnum_cons, hn]⟩

/-! ### `chunksPos` / `chunks` lemmas -/

lemma chunksPos_nil {α : Type} (c : Nat) : chunksPos c ([] : List α) = [] := rfl

lemma chunksPos_cons {α : Type} (c : Nat) (x : α) (xs : List α) :
    chunksPos c (x :: xs) = (x :: xs).take (c + 1) :: chunksPos c ((x :: xs).drop (c + 1)) := by
  have h1 : chunksPos c (x :: xs)
      = (x :: xs).take (c + 1) :: chunksPosAux c xs.length ((x :: xs).drop (c + 1)) := rfl
  rw [h1]
  congr 1
  exact chunksPosAux_congr c xs.length
    (by rw [List.length_drop]; simp only [List.length_cons]; omega) le_rfl

lemma chunksPos_eq_nil_iff {α : Type} (c : Nat) (l : List α) :
    chunksPos c l = [] ↔ l = [] := by
  cases l with
  | nil => simp [chunksPos_nil]
  | cons x xs => rw [chunksPos_cons]; simp

lemma chunksPos_flatten {α : Type} (c : Nat) (l : List α) : (chunksPos c l).flatten = l := by
  have H : ∀ (n : Nat) (l : List α), l.length ≤ n → (chunksPos c l).flatten = l := by
    intro n
    induction n with
    | zero =>
      intro l hl
      have : l = [] := List.eq_nil_of_length_eq_zero (Nat.le_zero.mp hl)
      subst this
      simp [chunksPos_nil]
    | succ n ih =>
      intro l hl
      cases l with
      | nil => simp [chunksPos_nil]
      | cons x xs =>
        rw [chunksPos_cons, List.flatten_cons, ih]
        · exact List.take_append_drop _ _
        · rw [List.length_drop]
          simp only [List.length_cons] at hl ⊢
          omega
  exact H l.length l le_rfl

lemma chunksPos_length_eq {α : Type} (c : Nat) (l : List α) :
    (chunksPos c l).length = (l.length + c) / (c + 1) := by
  have H : ∀ (n : Nat) (l : List α), l.length ≤ n →
      (chunksPos c l).length = (l.length + c) / (c + 1) := by
    intro n
    induction n with
    | zero =>
      intro l hl
      have hnil : l = [] := List.eq_nil_of_length_eq_zero (Nat.le_zero.mp hl)
      subst hnil
      have h0 : c / (c + 1) = 0 := Nat.div_eq_of_lt (by omega)
      simp [chunksPos_nil, h0]
    | succ n ih =>
      intro l hl
      cases l with
      | nil =>
        have h0 : c / (c + 1) = 0 := Nat.div_eq_of_lt (by omega)
        simp [chunksPos_nil, h0]
      | cons x xs =>
        rw [chunksPos_cons]
        simp only [List.length_cons]
        rw [ih]
        · rw [List.length_drop]
          simp only [List.length_cons]
          by_cases hc : xs.length + 1 ≤ c + 1
          · have h1 : xs.length + 1 - (c + 1) = 0 := by omega
            rw [h1]
            have h2 : (0 + c) / (c + 1) = 0 := Nat.div_eq_of_lt (by omega)
            rw [h2]
            have h3 : (xs.length + 1 + c) / (c + 1) = 1 := by
              apply Nat.div_eq_of_lt_le <;> omega
            omega
          · have h1 : xs.length + 1 - (c + 1) + c + (c + 1) = xs.length + 1 + c := by omega
            calc (xs.length + 1 - (c + 1) + c) / (c + 1) + 1
                = (xs.length + 1 - (c + 1) + c + (c + 1)) / (c + 1) := by
                  rw [Nat.add_div_right _ (by omega)]
              _ = (xs.length + 1 + c) / (c + 1) := by rw [h1]
        · rw [List.length_drop]
          simp only [List.length_cons] at hl ⊢
          omega
  exact H l.length l le_rfl

lemma chunksPos_dropLast {α : Type} (c : Nat) (l : List α) :
    ∀ ch ∈ (chunksPos c l).dropLast, ch.length = c + 1 := by
  have H : ∀ (n : Nat) (l : List α), l.length ≤ n →
      ∀ ch ∈ (chunksPos c l).dropLast, ch.length = c + 1 := by
    intro n
    induction n with
    | zero =>
      intro l hl
      have : l = [] := List.eq_nil_of_length_eq_zero (Nat.le_zero.mp hl)
      subst this
      simp [chunksPos_nil]
    | succ n ih =>
      intro l hl ch hch
      cases l with
      | nil => simp [chunksPos_nil] at hch
      | cons x xs =>
        rw [chunksPos_cons] at hch
        rcases hrest : chunksPos c ((x :: xs).drop (c + 1)) with _ | ⟨r, rs⟩
        · rw [hrest] at hch
          simp at hch
        · rw [hrest, List.dropLast_cons₂, List.mem_cons] at hch
          have hlen : c + 1 < (x :: xs).length := by
            have hne : (x :: xs).drop (c + 1) ≠ [] := by
              intro hcon
              rw [hcon, chunksPos_nil] at hrest
              exact List.noConfusion hrest
            have := List.length_pos.mpr hne
            rw [List.length_drop] at this
            omega
          rcases hch with rfl | hch'
          · rw [List.length_take]
            omega
          · refine ih ((x :: xs).drop (c + 1)) ?_ ch (by rw [hrest]; exact hch')
            rw [List.length_drop]
            simp only [List.length_cons] at hl ⊢
            omega
  exact H l.length l le_rfl

lemma chunks_sixteen {α : Type} (l : List α) : chunks l 16 = some (chunksPos 15 l) := by
  simp [chunks]

/-- C8: for every list of length `L` chunked at width 16 by `chunks`, the
number of yielded chunks is `⌈L/16⌉` (written `(L + 15) / 16` in natural
division), every chunk except possibly the last has exactly 16 items, and
concatenating all chunks in order reproduces the original list. -/
theorem c8_chunks_law {α : Type} (l : List α) :
    ∃ cs, chunks l 16 = some cs ∧ cs.length = (l.length + 15) / 16 ∧
      (∀ ch ∈ cs.dropLast, ch.length = 16) ∧ cs.flatten = l := by
  refine ⟨chunksPos 15 l, chunks_sixteen l, ?_, ?_, chunksPos_flatten 15 l⟩
  · exact chunksPos_length_eq 15 l
  · intro ch hch
    exact chunksPos_dropLast 15 l ch hch

/-- Witness for C8 at the concrete list `List.range 20`. -/
theorem c8_chunks_law_witness :
    ∃ cs, chunks (List.range 20) 16 = some cs ∧
      cs.length = ((List.range 20).length + 15) / 16 ∧
      (∀ ch ∈ cs.dropLast, ch.length = 16) ∧ cs.flatten = List.range 20 :=
  c8_chunks_law (List.range 20)

/-! ### C1: connectivity reordering -/

lemma pySlice_5_11 {α : Type} (l : List α) : pySlice l 5 11 = (l.drop 5).take 6 := by
  simp only [pySlice]
  norm_num
  by_cases h1 : (l.length : Int) ≤ 5
  · have hm5 : min (5 : Int) (l.length : Int) = (l.length : Int) := min_eq_right h1
    have hm11 : min (11 : Int) (l.length : Int) = (l.length : Int) := min_eq_right (by omega)
    rw [hm5, hm11]
    have hd : l.drop 5 = [] := List.drop_eq_nil_of_le (by exact_mod_cast h1)
    simp [hd]
  · push_neg at h1
    have hm5 : min (5 : Int) (l.length : Int) = 5 := min_eq_left (by omega)
    rw [hm5]
    by_cases h2 : (l.length : Int) ≤ 11
    · have hm11 : min (11 : Int) (l.length : Int) = (l.length : Int) := min_eq_right h2
      rw [hm11]
      have ht : ((l.length : Int) - 5).toNat = l.length - 5 := by omega
      have h5 : ((5 : Int)).toNat = 5 := by omega
      rw [ht, h5]
      have hlen : (l.drop 5).length = l.length - 5 := List.length_drop 5 l
      rw [List.take_of_length_le (by omega), List.take_of_length_le (by omega)]
    · have hm11 : min (11 : Int) (l.length : Int) = 11 := min_eq_left (by omega)
      rw [hm11]
      norm_num
      rfl

lemma connLine_def (n : Int) (e : List Int) :
    connLine n e = (e.get? 4).bind (fun cnt =>
      if cnt = 6 then
        ((pySlice e 5 (5 + cnt)).get? 0).bind (fun a =>
        ((pySlice e 5 (5 + cnt)).get? 1).bind (fun b =>
        ((pySlice e 5 (5 + cnt)).get? 2).bind (fun c =>
        ((pySlice e 5 (5 + cnt)).get? 3).bind (fun d =>
        ((pySlice e 5 (5 + cnt)).get? 4).bind (fun e2 =>
        ((pySlice e 5 (5 + cnt)).get? 5).bind (fun f =>
          some (some (String.intercalate ", " ([n, a, b, c, f, d, e2].map toString)))))))))
      else some none) := rfl

lemma connLine_spec {n : Int} {e : List Int} {o : Option String}
    (h : connLine n e = some o) : o = connLineSpec n e := by
  rw [connLine_def] at h
  cases h4 : e.get? 4 with
  | none => rw [h4] at h; simp at h
  | some cnt =>
    rw [h4, Option.some_bind] at h
    by_cases h6 : cnt = 6
    · subst h6
      rw [if_pos rfl] at h
      have h511 : (5 : Int) + 6 = 11 := by norm_num
      rw [h511, pySlice_5_11] at h
      simp only [Option.bind_eq_some, Option.some.injEq] at h
      obtain ⟨a, ha, b, hb, c, hc, d, hd, e2, he2, f, hf, ho⟩ := h
      have hlen6 : ((e.drop 5).take 6).length = 6 := by
        have hle : ((e.drop 5).take 6).length ≤ 6 := by
          rw [List.length_take]; omega
        have hgt : 5 < ((e.drop 5).take 6).length := by
          by_contra hcon
          push_neg at hcon
          rw [List.get?_eq_getElem?, List.getElem?_eq_none (by omega)] at hf
          exact Option.noConfusion hf
        omega
      have hnodes : (e.drop 5).take 6 = [a, b, c, d, e2, f] := by
        rcases hnn : (e.drop 5).take 6 with _ | ⟨y0, _ | ⟨y1, _ | ⟨y2, _ | ⟨y3, _ | ⟨y4, _ | ⟨y5, rest⟩⟩⟩⟩⟩⟩ <;>
          rw [hnn] at ha hb hc hd he2 hf hlen6 <;>
          simp_all
      rw [connLineSpec, if_pos h4, hnodes]
      exact ho.symm
    · rw [if_neg h6] at h
      simp only [Option.some.injEq] at h
      rw [connLineSpec, if_neg (by rw [h4]; simp [h6])]
      exact h.symm

lemma mapO_connLine {elements : List (List Int)} :
    ∀ {start : Int} {M : List (Option String)},
      mapO (fun p => connLine p.1 p.2) (pyEnum start elements) = some M →
      M.filterMap id = (pyEnum start elements).filterMap (fun p => connLineSpec p.1 p.2) := by
  induction elements with
  | nil =>
    intro start M h
    rw [pyEnum_nil, mapO_nil] at h
    simp only [Option.some.injEq] at h
    subst h
    simp [pyEnum_nil]
  | cons e l ih =>
    intro start M h
    rw [pyEnum_cons, mapO_cons] at h
    simp only [Option.bind_eq_some, Option.some.injEq] at h
    obtain ⟨o, ho, M', hM', hcons⟩ := h
    subst hcons
    have ho' : o = connLineSpec start e := connLine_spec ho
    subst ho'
    cases hsp : connLineSpec start e <;>
      simp [pyEnum_cons, List.filterMap_cons, hsp, ih hM']

/-- C1: for every element record whose 5th field (node count) equals 6,
`write_elements` emits one connectivity line: the element's 1-based sequential
number followed by the six trailing node ids reordered from `(a,b,c,d,e,f)` to
`(a,b,c,f,d,e)`; records whose node count is not 6 emit no connectivity line.
Stated as: the connectivity block equals the enumeration-ordered `filterMap` of
the claim-side rule `connLineSpec`, which yields `none` exactly on node counts
other than 6 and otherwise the permuted record. -/
theorem c1_connectivity_reorder (elements : List (List Int)) (L : List String)
    (h : connectivityLines elements = some L) :
    L = (pyEnum 1 elements).filterMap (fun p => connLineSpec p.1 p.2) ∧
    (∀ (n : Int) (e : List Int) (cnt : Int), e.get? 4 = some cnt → cnt ≠ 6 →
      connLineSpec n e = none) ∧
    (∀ (n x0 x1 x2 x3 a b c d e5 f : Int) (rest : List Int),
      connLineSpec n (x0 :: x1 :: x2 :: x3 :: 6 :: a :: b :: c :: d :: e5 :: f :: rest) =
        some (String.intercalate ", " ([n, a, b, c, f, d, e5].map toString))) := by
  refine ⟨?_, ?_, ?_⟩
  · unfold connectivityLines at h
    rw [Option.map_eq_some'] at h
    obtain ⟨M, hM, hL⟩ := h
    rw [← hL]
    exact mapO_connLine hM
  · intro n e cnt hcnt h6
    rw [connLineSpec, if_neg (by rw [hcnt]; simp [h6])]
  · intro n x0 x1 x2 x3 a b c d e5 f rest
    rfl

/-- Witness for C1 at a concrete two-element list: a 6-node element (nodes
11..16) yields the permuted record numbered 1, while the second, 3-node element
yields nothing. -/
theorem c1_connectivity_reorder_witness :
    ["1, 11, 12, 13, 16, 14, 15"] =
      (pyEnum 1 [[0, 1, 0, 0, 6, 11, 12, 13, 14, 15, 16], [0, 1, 0, 0, 3, 7, 8, 9]]).filterMap
        (fun p => connLineSpec p.1 p.2) :=
  (c1_connectivity_reorder [[0, 1, 0, 0, 6, 11, 12, 13, 14, 15, 16], [0, 1, 0, 0, 3, 7, 8, 9]]
    ["1, 11, 12, 13, 16, 14, 15"] (by decide)).1

/-! ### C10: output file name handling -/

lemma write_elements_def (name : String) (elements : List (List Int))
    (materials : List (Int × String)) :
    write_elements name elements materials =
      (connectivityLines elements).bind (fun conn =>
        (mapO (fun m => elsetBlock elements m.1 m.2) materials).bind (fun elsets =>
          some (name, ["**", "** " ++ name, "** Gegenereerd door mesh2inp.py.", "**",
            "*ELEMENT, TYPE=S6, ELSET=Eall"] ++ conn ++ elsets.flatten))) := rfl

lemma write_nodes_def (name : String) (points : List (List PyFloat)) (elements : List (List Int))
    (materials : List (Int × String)) (edge_boundaries : List (Int × Finset Int)) :
    write_nodes name points elements materials edge_boundaries =
      (mapO (fun p => coordRecord p.1 p.2) (pyEnum 1 points)).bind (fun nodeLines =>
        (mapO (fun m => nsetBlock elements m.1 m.2) materials).bind (fun matBlocks =>
          (mapO (fun kv => edgeBlock kv.1 kv.2) edge_boundaries).bind (fun edgeBlocks =>
            some (if pyEndsWith name ".inp" then name else name ++ ".inp",
              ["**", "** " ++ (if pyEndsWith name ".inp" then name else name ++ ".inp"),
                "** Gegenereerd door mesh2inp.py.", "**", "*NODE,NSET=Nall"]
                ++ nodeLines ++ matBlocks.flatten ++ edgeBlocks.flatten)))) := rfl

/-- C10: `write_nodes` appends the `.inp` extension to its output filename when
missing, but `write_elements` performs no such normalization — it opens exactly
the path it was given and writes that verbatim name into the header comment
(line 2 of the file). -/
theorem c10_filename_normalization :
    (∀ (name : String) (elements : List (List Int)) (materials : List (Int × String))
        (r : String × List String),
        write_elements name elements materials = some r →
        r.1 = name ∧ r.2.get? 1 = some ("** " ++ name)) ∧
    (∀ (name : String) (points : List (List PyFloat)) (elements : List (List Int))
        (materials : List (Int × String)) (ebs : List (Int × Finset Int))
        (r : String × List String),
        write_nodes name points elements materials ebs = some r →
        r.1 = (if pyEndsWith name ".inp" then name else name ++ ".inp") ∧
        r.2.get? 1 = some ("** " ++ r.1)) := by
  constructor
  · intro name elements materials r h
    rw [write_elements_def] at h
    simp only [Option.bind_eq_some, Option.some.injEq] at h
    obtain ⟨conn, hconn, elsets, helsets, hr⟩ := h
    subst hr
    refine ⟨rfl, ?_⟩
    simp [List.append_assoc, List.get?_eq_getElem?, List.getElem?_append]
  · intro name points elements materials ebs r h
    rw [write_nodes_def] at h
    simp only [Option.bind_eq_some, Option.some.injEq] at h
    obtain ⟨nodeLines, hn, matBlocks, hm, edgeBlocks, he, hr⟩ := h
    subst hr
    dsimp only
    constructor
    · rfl
    · generalize (if pyEndsWith name ".inp" = true then name else name ++ ".inp") = nm
      simp [List.append_assoc, List.get?_eq_getElem?, List.getElem?_append]

/-- Witness for C10: `write_elements` keeps the non-`.inp` name `out.txt`
verbatim, and `write_nodes` rewrites `n` to `n.inp`. -/
theorem c10_filename_normalization_witness :
    (("out.txt", ["**", "** out.txt", "** Gegenereerd door mesh2inp.py.", "**",
        "*ELEMENT, TYPE=S6, ELSET=Eall"]) : String × List String).1 = "out.txt" ∧
    (("n.inp", ["**", "** n.inp", "** Gegenereerd door mesh2inp.py.", "**",
        "*NODE,NSET=Nall"]) : String × List String).1 =
      (if pyEndsWith "n" ".inp" then "n" else "n" ++ ".inp") :=
  ⟨(c10_filename_normalization.1 "out.txt" [] []
      ("out.txt", ["**", "** out.txt", "** Gegenereerd door mesh2inp.py.", "**",
        "*ELEMENT, TYPE=S6, ELSET=Eall"]) (by decide)).1,
   (c10_filename_normalization.2 "n" [] [] [] []
      ("n.inp", ["**", "** n.inp", "** Gegenereerd door mesh2inp.py.", "**",
        "*NODE,NSET=Nall"]) (by decide)).1⟩

/-! ### C5: line preprocessing -/

/-- Counterexample for C5: the claim says the preprocessed line sequence
contains no empty lines, but a whitespace-only input line is trimmed to the
empty string and kept (only `#`-comment lines are dropped). -/
theorem c5_empty_line_counterexample :
    "" ∈ preprocess ["  ", "# c", "points"] := by decide

/-- C5 (amended): before any section keyword is located, `read_mesh` trims
every line and removes every line starting with `'#'` — preserving the order of
the remaining lines — but it does not remove empty lines. -/
theorem c5_preprocess_amended (raw : List String) :
    (preprocess raw).Sublist (raw.map pyStrip) ∧
    (∀ ln ∈ preprocess raw, ¬ pyStartsWith ln "#") ∧
    (∀ ln ∈ raw.map pyStrip, ¬ pyStartsWith ln "#" → ln ∈ preprocess raw) := by
  refine ⟨List.filter_sublist _, ?_, ?_⟩
  · intro ln h
    have := (List.mem_filter.mp h).2
    simpa using this
  · intro ln h hn
    exact List.mem_filter.mpr ⟨h, by simpa using hn⟩

/-- Witness for C5 (amended) at a concrete raw input. -/
theorem c5_preprocess_amended_witness :
    (preprocess ["# a", " x ", ""]).Sublist (["# a", " x ", ""].map pyStrip) ∧
    ¬ pyStartsWith "x" "#" :=
  ⟨(c5_preprocess_amended ["# a", " x ", ""]).1,
   (c5_preprocess_amended ["# a", " x ", ""]).2.1 "x" (by decide)⟩

/-! ### C6: section keyword lookup -/

lemma sectionData_def (lines : List String) (kw : String) :
    sectionData lines kw =
      (sectionIdx lines kw).bind (fun i =>
        (lines.get? (i - 1)).bind (fun countTok =>
          (pyInt? countTok).bind (fun n =>
            some (pySlice lines (i : Int) ((i : Int) + n))))) := rfl

lemma read_mesh_def (raw : List String) :
    read_mesh raw =
      (readPoints (preprocess raw)).bind (fun points =>
        (readElements (preprocess raw)).bind (fun elements =>
          (readMaterials (preprocess raw)).bind (fun materials =>
            (readEdges (preprocess raw)).bind (fun ebs =>
              some (points, elements, materials, ebs))))) := rfl

lemma findIdx?_eq_none_of_not_mem {kw : String} :
    ∀ {l : List String} {i : Nat}, kw ∉ l →
      List.findIdx? (fun ln => ln == kw) l i = none := by
  intro l
  induction l with
  | nil => intro i h; rfl
  | cons a l ih =>
    intro i h
    rw [List.findIdx?_cons]
    have ha : (a == kw) = false := by
      apply beq_eq_false_iff_ne.mpr
      intro he
      exact h (he ▸ List.mem_cons_self a l)
    rw [ha]
    simp only [Bool.false_eq_true, if_false]
    exact ih (fun hm => h (List.mem_cons_of_mem a hm))

lemma sectionIdx_eq_none {lines : List String} {kw : String} (h : kw ∉ lines) :
    sectionIdx lines kw = none := by
  unfold sectionIdx
  rw [findIdx?_eq_none_of_not_mem h]
  rfl

lemma sectionData_eq_none {lines : List String} {kw : String} (h : kw ∉ lines) :
    sectionData lines kw = none := by
  rw [sectionData_def, sectionIdx_eq_none h]
  rfl

/-- Counterexample for C6: an input whose sections appear out of the claimed
order (`surfaceelements` before `points`) and in which the keyword `points`
occurs twice is parsed successfully — `read_mesh` locates each keyword's first
occurrence independently and enforces neither order nor uniqueness. -/
theorem c6_order_counterexample :
    read_mesh ["surfaceelements", "0", "points", "0", "materials", "0",
      "edgesegmentsgi2", "0", "points"] = some ([], [], [], []) := by rfl

/-- C6 (amended): `read_mesh` locates each of the four section keywords
independently, at its first occurrence, without enforcing order or uniqueness;
an input in which any of the four keywords is absent from the preprocessed
lines fails with an unhandled lookup failure (modelled as `none`). -/
theorem c6_keyword_lookup (raw : List String)
    (h : "points" ∉ preprocess raw ∨ "surfaceelements" ∉ preprocess raw ∨
      "materials" ∉ preprocess raw ∨ "edgesegmentsgi2" ∉ preprocess raw) :
    read_mesh raw = none := by
  rw [read_mesh_def]
  rcases h with h | h | h | h
  · have hp : readPoints (preprocess raw) = none := by
      unfold readPoints
      rw [sectionData_eq_none h]
      rfl
    rw [hp]
    rfl
  · have he : readElements (preprocess raw) = none := by
      unfold readElements
      rw [sectionData_eq_none h]
      rfl
    cases hp : readPoints (preprocess raw) with
    | none => rfl
    | some p =>
      rw [Option.some_bind, he]
      rfl
  · have hm : readMaterials (preprocess raw) = none := by
      unfold readMaterials
      rw [sectionData_eq_none h]
      rfl
    cases hp : readPoints (preprocess raw) with
    | none => rfl
    | some p =>
      rw [Option.some_bind]
      cases he : readElements (preprocess raw) with
      | none => rfl
      | some es =>
        rw [Option.some_bind, hm]
        rfl
  · have hg : readEdges (preprocess raw) = none := by
      unfold readEdges
      rw [sectionData_eq_none h]
      rfl
    cases hp : readPoints (preprocess raw) with
    | none => rfl
    | some p =>
      rw [Option.some_bind]
      cases he : readElements (preprocess raw) with
      | none => rfl
      | some es =>
        rw [Option.some_bind]
        cases hm : readMaterials (preprocess raw) with
        | none => rfl
        | some ms =>
          rw [Option.some_bind, hg]
          rfl

/-- Witness for C6 (amended): an input with no section keywords at all fails. -/
theorem c6_keyword_lookup_witness : read_mesh ["nothing here"] = none :=
  c6_keyword_lookup ["nothing here"] (Or.inl (by decide))

/-! ### C7: malformed data lines -/

/-- Counterexample for C7: the element data line `1 1 0 0 3 7 8` declares a
node count of 3 but carries only two trailing node ids, yet the whole run
(read plus both writers) succeeds and produces output, because Python slicing
never raises and the reorder branch only touches 6-node elements. -/
theorem c7_short_element_line_counterexample :
    (convert ["points", "0", "surfaceelements", "1", "1 1 0 0 3 7 8",
      "materials", "0", "edgesegmentsgi2", "0"] "n.inp" "e.inp").isSome = true := by decide

lemma coordRecord_eq_none (n : Int) (p : List PyFloat) (h : p.length ≠ 3) :
    coordRecord n p = none := by
  rcases p with _ | ⟨a, _ | ⟨b, _ | ⟨c, _ | ⟨d, t⟩⟩⟩⟩
  · rfl
  · rfl
  · rfl
  · exact absurd rfl h
  · rfl

lemma connLine_eq_none_of_short (n : Int) (e : List Int)
    (h4 : e.get? 4 = some 6) (hlen : e.length < 11) : connLine n e = none := by
  rw [connLine_def, h4, Option.some_bind, if_pos rfl]
  have h511 : (5 : Int) + 6 = 11 := by norm_num
  rw [h511, pySlice_5_11]
  have h5 : e[10]? = none := List.getElem?_eq_none (by omega)
  cases h0 : ((e.drop 5).take 6).get? 0 <;> cases h1 : ((e.drop 5).take 6).get? 1 <;>
    cases h2 : ((e.drop 5).take 6).get? 2 <;> cases h3 : ((e.drop 5).take 6).get? 3 <;>
    cases h4b : ((e.drop 5).take 6).get? 4 <;>
    simp [h0, h1, h2, h3, h4b, h5]

/-- C7 (amended): a points data line whose tuple does not have exactly three
values makes the run fail (an unhandled unpacking failure while writing
nodes), and an element line with fewer trailing node ids than its declared
node count makes the run fail when that node count is 6 (an unhandled index
failure while writing the connectivity block); when the declared node count is
not 6 such a short element line is silently accepted and output is produced,
as the counterexample shows. -/
theorem c7_malformed_lines_amended :
    (∀ (name : String) (points : List (List PyFloat)) (elements : List (List Int))
        (materials : List (Int × String)) (ebs : List (Int × Finset Int)) (p : List PyFloat),
        p ∈ points → p.length ≠ 3 →
        write_nodes name points elements materials ebs = none) ∧
    (∀ (name : String) (elements : List (List Int)) (materials : List (Int × String))
        (e : List Int), e ∈ elements → e.get? 4 = some 6 → e.length < 11 →
        write_elements name elements materials = none) := by
  constructor
  · intro name points elements materials ebs p hp hlen
    rw [write_nodes_def]
    obtain ⟨n, hn⟩ := pyEnum_mem_of_mem 1 hp
    rw [mapO_eq_none (fun q => coordRecord q.1 q.2) hn (coordRecord_eq_none n p hlen)]
    rfl
  · intro name elements materials e he h4 hlen
    rw [write_elements_def]
    have hc : connectivityLines elements = none := by
      unfold connectivityLines
      obtain ⟨n, hn⟩ := pyEnum_mem_of_mem 1 he
      rw [mapO_eq_none (fun q => connLine q.1 q.2) hn (connLine_eq_none_of_short n e h4 hlen)]
      rfl
    rw [hc]
    rfl

/-- Witness for C7 (amended): a 1-coordinate point kills the node writer, and a
6-node element with only two trailing ids kills the element writer. -/
theorem c7_malformed_lines_amended_witness :
    write_nodes "n" [[⟨1, 0⟩]] [] [] [] = none ∧
    write_elements "e" [[0, 1, 0, 0, 6, 7, 8]] [] = none :=
  ⟨c7_malformed_lines_amended.1 "n" [[⟨1, 0⟩]] [] [] [] [⟨1, 0⟩] (by decide) (by decide),
   c7_malformed_lines_amended.2 "e" [[0, 1, 0, 0, 6, 7, 8]] [] [0, 1, 0, 0, 6, 7, 8]
     (by decide) (by decide) (by decide)⟩

/-! ### C9: one coordinate record per point -/

lemma coordRecord_shape {n : Int} {pt : List PyFloat} {s : String}
    (h : coordRecord n pt = some s) : ∃ x y z, pt = [x, y, z] := by
  rcases pt with _ | ⟨a, _ | ⟨b, _ | ⟨c, _ | ⟨d, t⟩⟩⟩⟩
  · exact absurd h (by simp [coordRecord])
  · exact absurd h (by simp [coordRecord])
  · exact absurd h (by simp [coordRecord])
  · exact ⟨a, b, c, rfl⟩
  · exact absurd h (by simp [coordRecord])

/-- C9: for every list of parsed points, `write_nodes` emits exactly one
coordinate record per point — the block of lines directly after the 5-line
header has exactly `points.length` records — numbered sequentially from 1 in
parsed order (record `i` is `coordRecord (i+1)` of the `i`-th point, which
forces each point to have exactly three coordinates), and `formatFixed2`
always renders a coordinate as some prefix followed by a dot and exactly two
digits. -/
theorem c9_node_records (name : String) (points : List (List PyFloat)) (elements : List (List Int))
    (materials : List (Int × String)) (ebs : List (Int × Finset Int))
    (outName : String) (out : List String)
    (h : write_nodes name points elements materials ebs = some (outName, out)) :
    (∃ nodeLines, mapO (fun p => coordRecord p.1 p.2) (pyEnum 1 points) = some nodeLines ∧
      nodeLines.length = points.length ∧
      (out.drop 5).take points.length = nodeLines) ∧
    (∀ (i : Nat) (pt : List PyFloat), points.get? i = some pt →
      ∃ x y z, pt = [x, y, z] ∧
        out.get? (5 + i) = coordRecord ((i : Int) + 1) pt) ∧
    (∀ v : PyFloat, ∃ (pre : String) (k : Nat), k < 100 ∧
      formatFixed2 v = pre ++ "." ++ twoDigits k ∧ (twoDigits k).length = 2) := by
  rw [write_nodes_def] at h
  simp only [Option.bind_eq_some, Option.some.injEq] at h
  obtain ⟨nodeLines, hn, matBlocks, hm, edgeBlocks, he, hpair⟩ := h
  have hpair' := hpair
  rw [Prod.mk.injEq] at hpair'
  obtain ⟨hname, hout⟩ := hpair'
  have hlen : nodeLines.length = points.length := by
    rw [mapO_length _ hn, pyEnum_length]
  have hout' : out =
      ["**", "** " ++ (if pyEndsWith name ".inp" then name else name ++ ".inp"),
        "** Gegenereerd door mesh2inp.py.", "**", "*NODE,NSET=Nall"]
        ++ (nodeLines ++ (matBlocks.flatten ++ edgeBlocks.flatten)) := by
    rw [← hout]
    simp [List.append_assoc]
  have hseg : (out.drop 5).take points.length = nodeLines := by
    rw [hout']
    have h5 : (5 : Nat) =
        (["**", "** " ++ (if pyEndsWith name ".inp" then name else name ++ ".inp"),
          "** Gegenereerd door mesh2inp.py.", "**", "*NODE,NSET=Nall"] : List String).length := rfl
    rw [h5, List.drop_left, ← hlen, List.take_left]
  refine ⟨⟨nodeLines, hn, hlen, hseg⟩, ?_, ?_⟩
  · intro i pt hpt
    have hilt : i < points.length := by
      by_contra hcon
      push_neg at hcon
      rw [List.get?_eq_getElem?, List.getElem?_eq_none hcon] at hpt
      exact Option.noConfusion hpt
    have hgi : nodeLines.get? i = coordRecord (1 + (i : Int)) pt := by
      rw [mapO_get? _ hn i, pyEnum_get?, hpt]
      rfl
    obtain ⟨s, hs⟩ : ∃ s, nodeLines.get? i = some s := by
      cases hcase : nodeLines.get? i with
      | none =>
        rw [List.get?_eq_none] at hcase
        omega
      | some s => exact ⟨s, rfl⟩
    have hcr : coordRecord (1 + (i : Int)) pt = some s := by rw [← hgi]; exact hs
    obtain ⟨x, y, z, hxyz⟩ := coordRecord_shape hcr
    refine ⟨x, y, z, hxyz, ?_⟩
    have e1 : out.get? (5 + i) = (out.drop 5).get? i := by
      rw [List.get?_eq_getElem?, List.get?_eq_getElem?, List.getElem?_drop]
    have e2 : (out.drop 5).get? i = ((out.drop 5).take points.length).get? i := by
      rw [List.get?_eq_getElem?, List.get?_eq_getElem?, List.getElem?_take, if_pos hilt]
    rw [e1, e2, hseg, hgi, add_comm 1 ((i : Nat) : Int)]
  · intro v
    refine ⟨(if Int.fdiv (200 * v.num + 10 ^ v.shift) (2 * 10 ^ v.shift) < 0 then "-" else "")
        ++ toString ((Int.fdiv (200 * v.num + 10 ^ v.shift) (2 * 10 ^ v.shift)).natAbs / 100),
      (Int.fdiv (200 * v.num + 10 ^ v.shift) (2 * 10 ^ v.shift)).natAbs % 100,
      Nat.mod_lt _ (by norm_num), rfl, rfl⟩

/-- Witness for C9 at one concrete point `(0.5, 3, -2)` written to `n.inp`. -/
theorem c9_node_records_witness :
    ∃ x y z, ([⟨5, 1⟩, ⟨3, 0⟩, ⟨-2, 0⟩] : List PyFloat) = [x, y, z] ∧
      (["**", "** n.inp", "** Gegenereerd door mesh2inp.py.", "**", "*NODE,NSET=Nall",
        "1, 0.50, 3.00, -2.00"] : List String).get? (5 + 0) =
        coordRecord (((0 : Nat) : Int) + 1) [⟨5, 1⟩, ⟨3, 0⟩, ⟨-2, 0⟩] :=
  (c9_node_records "n" [[⟨5, 1⟩, ⟨3, 0⟩, ⟨-2, 0⟩]] [] [] [] "n.inp"
    ["**", "** n.inp", "** Gegenereerd door mesh2inp.py.", "**", "*NODE,NSET=Nall",
      "1, 0.50, 3.00, -2.00"] (by decide)).2.1 0 [⟨5, 1⟩, ⟨3, 0⟩, ⟨-2, 0⟩] (by decide)

/-! ### C3: element sets -/

lemma mapO_mem_forward {α β : Type} (f : α → Option β) :
    ∀ {l : List α} {r : List β}, mapO f l = some r →
      ∀ a ∈ l, ∃ b, f a = some b ∧ b ∈ r := by
  intro l
  induction l with
  | nil => intro r h a ha; simp at ha
  | cons x l ih =>
    intro r h a ha
    rw [mapO_cons] at h
    simp only [Option.bind_eq_some, Option.some.injEq] at h
    obtain ⟨b0, hb0, r', hr', hcons⟩ := h
    subst hcons
    rcases List.mem_cons.mp ha with rfl | ha'
    · exact ⟨b0, hb0, List.mem_cons_self _ _⟩
    · obtain ⟨b, hb, hbr⟩ := ih hr' a ha'
      exact ⟨b, hb, List.mem_cons_of_mem _ hbr⟩

lemma mapO_pairs_filter {matnum : Int} :
    ∀ {L : List (Int × List Int)} {checked : List (Int × Int)},
      mapO (fun p => (p.2.get? 1).map (fun m => (p.1, m))) L = some checked →
      (checked.filter (fun q => q.2 == matnum)).map Prod.fst
        = (L.filter (fun p => p.2.get? 1 == some matnum)).map Prod.fst := by
  intro L
  induction L with
  | nil =>
    intro checked h
    rw [mapO_nil] at h
    simp only [Option.some.injEq] at h
    subst h
    rfl
  | cons a L ih =>
    intro checked h
    rw [mapO_cons] at h
    simp only [Option.bind_eq_some, Option.some.injEq] at h
    obtain ⟨b, hb, checked', hch', hcons⟩ := h
    subst hcons
    simp only [Option.map_eq_some'] at hb
    obtain ⟨m, hm, hbm⟩ := hb
    subst hbm
    rw [List.get?_eq_getElem?] at hm
    by_cases hmq : m = matnum <;>
      simp [List.filter_cons, hm, hmq, ih hch']

lemma matchingElnums_def (elements : List (List Int)) (matnum : Int) :
    matchingElnums elements matnum =
      (mapO (fun p => (p.2.get? 1).map (fun m => (p.1, m))) (pyEnum 1 elements)).bind
        (fun checked => some ((checked.filter (fun q => q.2 == matnum)).map Prod.fst)) := rfl

lemma matchingElnums_char {elements : List (List Int)} {matnum : Int} {r : List Int}
    (h : matchingElnums elements matnum = some r) :
    r = ((pyEnum 1 elements).filter (fun p => p.2.get? 1 == some matnum)).map Prod.fst := by
  rw [matchingElnums_def] at h
  simp only [Option.bind_eq_some, Option.some.injEq] at h
  obtain ⟨checked, hch, hr⟩ := h
  rw [← hr]
  exact mapO_pairs_filter hch

lemma elsetBlock_def (elements : List (List Int)) (matnum : Int) (matname : String) :
    elsetBlock elements matnum matname =
      (matchingElnums elements matnum).bind (fun elnums =>
        (chunks elnums 16).bind (fun subs =>
          some (("*ELSET,ELSET=E" ++ matname)
            :: subs.map (fun sub => String.intercalate ", " (sub.map toString) ++ ",")))) := rfl

/-- C3: for every material `(matnum, matname)` in the materials list, the
element deck written by `write_elements` contains a block labeled
`*ELSET,ELSET=E<matname>` listing exactly the 1-based sequential numbers of
every element record whose second field equals `matnum` — including records
whose node count is not 6 — in ascending order, wrapped 16 numbers per line,
with every emitted number line terminated by a trailing comma. -/
theorem c3_elset_block (elements : List (List Int)) (materials : List (Int × String))
    (name outName : String) (out : List String) (matnum : Int) (matname : String)
    (hw : write_elements name elements materials = some (outName, out))
    (hmem : (matnum, matname) ∈ materials) :
    ∃ elnums B,
      matchingElnums elements matnum = some elnums ∧
      elsetBlock elements matnum matname = some B ∧
      elnums = ((pyEnum 1 elements).filter (fun p => p.2.get? 1 == some matnum)).map Prod.fst ∧
      List.Sorted (· < ·) elnums ∧
      B = ("*ELSET,ELSET=E" ++ matname)
        :: (chunksPos 15 elnums).map (fun sub => String.intercalate ", " (sub.map toString) ++ ",") ∧
      (chunksPos 15 elnums).flatten = elnums ∧
      (∀ ch ∈ (chunksPos 15 elnums).dropLast, ch.length = 16) ∧
      (∀ ln ∈ B.tail, ∃ pre, ln = pre ++ ",") ∧
      B <:+: out := by
  rw [write_elements_def] at hw
  simp only [Option.bind_eq_some, Option.some.injEq] at hw
  obtain ⟨conn, hconn, elsets, helsets, hpair⟩ := hw
  rw [Prod.mk.injEq] at hpair
  obtain ⟨hname, hout⟩ := hpair
  obtain ⟨B, hB, hBmem⟩ := mapO_mem_forward _ helsets (matnum, matname) hmem
  rw [elsetBlock_def] at hB
  simp only [Option.bind_eq_some, Option.some.injEq] at hB
  obtain ⟨elnums, hel, subs, hsubs, hBdef⟩ := hB
  rw [chunks_sixteen] at hsubs
  simp only [Option.some.injEq] at hsubs
  subst hsubs
  have hchar := matchingElnums_char hel
  have hsorted : List.Sorted (· < ·) elnums := by
    rw [hchar]
    refine List.Pairwise.map Prod.fst ?_ (List.Pairwise.filter _ (pyEnum_pairwise elements 1))
    intro a b hab
    exact hab
  refine ⟨elnums, B, hel, ?_, hchar, hsorted, hBdef.symm, chunksPos_flatten 15 elnums, ?_, ?_, ?_⟩
  · rw [elsetBlock_def, hel, Option.some_bind, chunks_sixteen, Option.some_bind, hBdef]
  · intro ch hch
    exact chunksPos_dropLast 15 elnums ch hch
  · intro ln hln
    rw [← hBdef] at hln
    simp only [List.tail_cons, List.mem_map] at hln
    obtain ⟨sub, _, hsub⟩ := hln
    exact ⟨String.intercalate ", " (sub.map toString), hsub.symm⟩
  · have h1 : B <:+: elsets.flatten := List.infix_of_mem_flatten hBmem
    have h2 : elsets.flatten <:+: out := by
      rw [← hout]
      exact (List.suffix_append _ _).isInfix
    exact h1.trans h2

/-- Witness for C3: with elements of materials 2 (one 6-node, one 3-node) the
element numbers 1 and 2 both appear, sorted, in the `Esteel` set. -/
theorem c3_elset_block_witness :
    List.Sorted (· < ·)
      (((pyEnum 1 [[0, 2, 0, 0, 6, 1, 2, 3, 4, 5, 6], [0, 2, 0, 0, 3, 9, 8, 7]]).filter
        (fun p => p.2.get? 1 == some (2 : Int))).map Prod.fst) := by
  obtain ⟨elnums, B, hel, hB, hchar, hsorted, hrest⟩ :=
    c3_elset_block [[0, 2, 0, 0, 6, 1, 2, 3, 4, 5, 6], [0, 2, 0, 0, 3, 9, 8, 7]] [(2, "steel")]
      "e.inp" "e.inp"
      ["**", "** e.inp", "** Gegenereerd door mesh2inp.py.", "**",
        "*ELEMENT, TYPE=S6, ELSET=Eall", "1, 1, 2, 3, 6, 4, 5", "*ELSET,ELSET=Esteel", "1, 2,"]
      2 "steel" (by decide) (by decide)
  exact hchar ▸ hsorted

/-! ### C2: material node sets -/

lemma insortM_sorted (m : Multiset Int) : List.Sorted (· ≤ ·) (insortM m) :=
  Quot.inductionOn m (fun l => List.sorted_insertionSort _ l)

lemma insortM_coe (m : Multiset Int) : (insortM m : Multiset Int) = m :=
  Quot.inductionOn m (fun l => Quot.sound (List.perm_insertionSort _ l))

lemma finsetSorted_mem (s : Finset Int) (v : Int) : v ∈ finsetSorted s ↔ v ∈ s := by
  rw [Finset.mem_def, ← insortM_coe s.val, Multiset.mem_coe]
  rfl

lemma finsetSorted_nodup (s : Finset Int) : (finsetSorted s).Nodup := by
  rw [← Multiset.coe_nodup]
  show (insortM s.val : Multiset Int).Nodup
  rw [insortM_coe s.val]
  exact s.nodup

lemma finsetSorted_sorted_lt (s : Finset Int) : List.Sorted (· < ·) (finsetSorted s) :=
  List.Sorted.lt_of_le (insortM_sorted s.val) (finsetSorted_nodup s)

lemma nsetStep_def (acc : Finset Int) (e : List Int) :
    nsetStep acc e =
      (e.get? 4).bind (fun cnt => some (acc ∪ (pySlice e 5 (5 + cnt)).toFinset)) := rfl

lemma nsetFor_def (elements : List (List Int)) (matnum : Int) :
    nsetFor elements matnum =
      (mapO (fun el => (el.get? 1).map (fun m => (el, m))) elements).bind (fun checked =>
        foldO nsetStep ∅ ((checked.filter (fun p => p.2 == matnum)).map Prod.fst)) := rfl

lemma nsetBlock_def (elements : List (List Int)) (matnum : Int) (matname : String) :
    nsetBlock elements matnum matname =
      (nsetFor elements matnum).bind (fun nset =>
        (chunks (finsetSorted nset) 16).bind (fun subs =>
          some (("*NSET,NSET=N" ++ matname)
            :: subs.map (fun sub => "  " ++ String.intercalate ", " (sub.map toString))))) := rfl

lemma foldO_nsetStep_mem :
    ∀ {l : List (List Int)} {acc s : Finset Int},
      foldO nsetStep acc l = some s → ∀ v : Int,
        v ∈ s ↔ v ∈ acc ∨ ∃ e ∈ l, ∃ cnt, e.get? 4 = some cnt ∧ v ∈ pySlice e 5 (5 + cnt) := by
  intro l
  induction l with
  | nil =>
    intro acc s h v
    rw [foldO_nil] at h
    simp only [Option.some.injEq] at h
    subst h
    simp
  | cons e l ih =>
    intro acc s h v
    rw [foldO_cons] at h
    simp only [Option.bind_eq_some] at h
    obtain ⟨acc1, hstep, hrest⟩ := h
    rw [nsetStep_def] at hstep
    simp only [Option.bind_eq_some, Option.some.injEq] at hstep
    obtain ⟨cnt, hcnt, hacc1⟩ := hstep
    rw [ih hrest v, ← hacc1]
    simp only [Finset.mem_union, List.mem_toFinset]
    constructor
    · rintro ((hv | hv) | ⟨e', he', cnt', hc', hv⟩)
      · left; exact hv
      · right; exact ⟨e, List.mem_cons_self _ _, cnt, hcnt, hv⟩
      · right; exact ⟨e', List.mem_cons_of_mem _ he', cnt', hc', hv⟩
    · rintro (hv | ⟨e', he', cnt', hc', hv⟩)
      · left; left; exact hv
      · rcases List.mem_cons.mp he' with rfl | he''
        · left; right
          have hcc : cnt' = cnt := by
            rw [hcnt] at hc'
            exact (Option.some.injEq _ _ ▸ hc').symm
          rw [← hcc]
          exact hv
        · right; exact ⟨e', he'', cnt', hc', hv⟩

lemma matching_mem {elements : List (List Int)} {matnum : Int}
    {checked : List (List Int × Int)}
    (h : mapO (fun el => (el.get? 1).map (fun m => (el, m))) elements = some checked) :
    ∀ e : List Int,
      e ∈ (checked.filter (fun p => p.2 == matnum)).map Prod.fst ↔
        e ∈ elements ∧ e.get? 1 = some matnum := by
  intro e
  simp only [List.mem_map, List.mem_filter]
  constructor
  · rintro ⟨⟨el, m⟩, ⟨hmem, hbeq⟩, rfl⟩
    obtain ⟨a, ha, hfa⟩ := (mapO_mem _ h _).mp hmem
    simp only [Option.map_eq_some'] at hfa
    obtain ⟨m', hm', heq⟩ := hfa
    rw [Prod.mk.injEq] at heq
    obtain ⟨rfl, rfl⟩ := heq
    have hm2 : m' = matnum := by simpa using hbeq
    exact ⟨ha, by rw [hm', hm2]⟩
  · rintro ⟨he, hget⟩
    refine ⟨(e, matnum), ⟨?_, by simp⟩, rfl⟩
    refine (mapO_mem _ h _).mpr ⟨e, he, ?_⟩
    rw [hget]
    rfl

/-- C2: for every material `(matnum, matname)` in the materials list, the node
deck written by `write_nodes` contains a block labeled `*NSET,NSET=N<matname>`
whose node set is exactly the union, over all element records whose second
field equals `matnum`, of that element's trailing `node_count` node ids
(`e[5:5+e[4]]`) — no other ids — and whose members are emitted in ascending
numeric order, wrapped 16 per line. -/
theorem c2_material_node_set (name : String) (points : List (List PyFloat))
    (elements : List (List Int)) (materials : List (Int × String))
    (ebs : List (Int × Finset Int)) (outName : String) (out : List String)
    (matnum : Int) (matname : String)
    (hw : write_nodes name points elements materials ebs = some (outName, out))
    (hmem : (matnum, matname) ∈ materials) :
    ∃ nset B,
      nsetFor elements matnum = some nset ∧
      nsetBlock elements matnum matname = some B ∧
      (∀ v : Int, v ∈ nset ↔ ∃ e ∈ elements, e.get? 1 = some matnum ∧
        ∃ cnt, e.get? 4 = some cnt ∧ v ∈ pySlice e 5 (5 + cnt)) ∧
      B = ("*NSET,NSET=N" ++ matname)
        :: (chunksPos 15 (finsetSorted nset)).map
            (fun sub => "  " ++ String.intercalate ", " (sub.map toString)) ∧
      List.Sorted (· < ·) (finsetSorted nset) ∧
      (∀ v : Int, v ∈ finsetSorted nset ↔ v ∈ nset) ∧
      (chunksPos 15 (finsetSorted nset)).flatten = finsetSorted nset ∧
      B <:+: out := by
  rw [write_nodes_def] at hw
  simp only [Option.bind_eq_some, Option.some.injEq] at hw
  obtain ⟨nodeLines, hn, matBlocks, hm, edgeBlocks, he, hpair⟩ := hw
  rw [Prod.mk.injEq] at hpair
  obtain ⟨hname, hout⟩ := hpair
  obtain ⟨B, hB, hBmem⟩ := mapO_mem_forward _ hm (matnum, matname) hmem
  rw [nsetBlock_def] at hB
  simp only [Option.bind_eq_some, Option.some.injEq] at hB
  obtain ⟨nset, hnset, subs, hsubs, hBdef⟩ := hB
  rw [chunks_sixteen] at hsubs
  simp only [Option.some.injEq] at hsubs
  subst hsubs
  have hmemiff : ∀ v : Int, v ∈ nset ↔ ∃ e ∈ elements, e.get? 1 = some matnum ∧
      ∃ cnt, e.get? 4 = some cnt ∧ v ∈ pySlice e 5 (5 + cnt) := by
    rw [nsetFor_def] at hnset
    simp only [Option.bind_eq_some] at hnset
    obtain ⟨checked, hch, hfold⟩ := hnset
    intro v
    rw [foldO_nsetStep_mem hfold v]
    simp only [Finset.not_mem_empty, false_or]
    constructor
    · rintro ⟨e, he', cnt, hc, hv⟩
      obtain ⟨hee, hg⟩ := (matching_mem hch e).mp he'
      exact ⟨e, hee, hg, cnt, hc, hv⟩
    · rintro ⟨e, hee, hg, cnt, hc, hv⟩
      exact ⟨e, (matching_mem hch e).mpr ⟨hee, hg⟩, cnt, hc, hv⟩
  refine ⟨nset, B, hnset, ?_, hmemiff, hBdef.symm, finsetSorted_sorted_lt nset,
    finsetSorted_mem nset, chunksPos_flatten 15 (finsetSorted nset), ?_⟩
  · rw [nsetBlock_def, hnset, Option.some_bind, chunks_sixteen, Option.some_bind, hBdef]
  · have h1 : B <:+: matBlocks.flatten := List.infix_of_mem_flatten hBmem
    have h2 : matBlocks.flatten <:+: out := by
      rw [← hout]
      have hsuf : matBlocks.flatten <:+:
          (["**", "** " ++ (if pyEndsWith name ".inp" then name else name ++ ".inp"),
            "** Gegenereerd door mesh2inp.py.", "**", "*NODE,NSET=Nall"]
            ++ nodeLines ++ matBlocks.flatten) :=
        (List.suffix_append _ _).isInfix
      exact hsuf.trans (List.prefix_append _ _).isInfix
    exact h1.trans h2

/-- Witness for C2: for material 2 with a 6-node element (nodes 1..6) and a
3-node element (nodes 9 8 7), the computed node set is characterized exactly
by the union of the elements' trailing node-id slices. -/
theorem c2_material_node_set_witness :
    ∃ nset : Finset Int,
      nsetFor [[0, 2, 0, 0, 6, 1, 2, 3, 4, 5, 6], [0, 2, 0, 0, 3, 9, 8, 7]] 2 = some nset ∧
      (∀ v : Int, v ∈ nset ↔
        ∃ e ∈ ([[0, 2, 0, 0, 6, 1, 2, 3, 4, 5, 6], [0, 2, 0, 0, 3, 9, 8, 7]] : List (List Int)),
          e.get? 1 = some (2 : Int) ∧
          ∃ cnt, e.get? 4 = some cnt ∧ v ∈ pySlice e 5 (5 + cnt)) := by
  obtain ⟨nset, B, hnset, hB, hmemiff, hrest⟩ :=
    c2_material_node_set "n.inp" [] [[0, 2, 0, 0, 6, 1, 2, 3, 4, 5, 6], [0, 2, 0, 0, 3, 9, 8, 7]]
      [(2, "steel")] [] "n.inp"
      ["**", "** n.inp", "** Gegenereerd door mesh2inp.py.", "**", "*NODE,NSET=Nall",
        "*NSET,NSET=Nsteel", "  1, 2, 3, 4, 5, 6, 7, 8, 9"]
      2 "steel" (by decide) (by decide)
  exact ⟨nset, hnset, hmemiff⟩

/-! ### C4: edge boundary sets -/

lemma edgeStep_def (acc : List (Int × Finset Int)) (e : List String) :
    edgeStep acc e = (tokInt e 0).bind (fun key =>
      if key > 100 then
        (tokInt e 2).bind (fun a => (tokInt e 3).bind (fun b =>
          some (ebAdd (ebAdd acc key a) key b)))
      else some acc) := rfl

lemma ebLookup_nil (tag : Int) : ebLookup [] tag = none := rfl

lemma ebLookup_ebAdd_self (acc : List (Int × Finset Int)) (key v : Int) :
    ebLookup (ebAdd acc key v) key = some (insert v ((ebLookup acc key).getD ∅)) := by
  induction acc with
  | nil =>
    show ebLookup [(key, {v})] key = _
    simp [ebLookup, List.find?]
  | cons p rest ih =>
    obtain ⟨k, s⟩ := p
    by_cases hk : k = key
    · subst hk
      show ebLookup (if k = k then (k, insert v s) :: rest else (k, s) :: ebAdd rest k v) k = _
      rw [if_pos rfl]
      simp [ebLookup, List.find?]
    · show ebLookup (if k = key then (k, insert v s) :: rest else (k, s) :: ebAdd rest key v) key = _
      rw [if_neg hk]
      have hbeq : (k == key) = false := beq_eq_false_iff_ne.mpr hk
      simp only [ebLookup, List.find?, hbeq]
      exact ih

lemma ebLookup_ebAdd_ne (acc : List (Int × Finset Int)) (key v tag : Int) (h : tag ≠ key) :
    ebLookup (ebAdd acc key v) tag = ebLookup acc tag := by
  induction acc with
  | nil =>
    show ebLookup [(key, {v})] tag = none
    have hbeq : (key == tag) = false := beq_eq_false_iff_ne.mpr (Ne.symm h)
    simp [ebLookup, List.find?, hbeq]
  | cons p rest ih =>
    obtain ⟨k, s⟩ := p
    by_cases hk : k = key
    · subst hk
      show ebLookup (if k = k then (k, insert v s) :: rest else (k, s) :: ebAdd rest k v) tag
        = ebLookup ((k, s) :: rest) tag
      rw [if_pos rfl]
      have hbeq : (k == tag) = false := beq_eq_false_iff_ne.mpr (fun hkk => h hkk.symm)
      simp [ebLookup, List.find?, hbeq]
    · show ebLookup (if k = key then (k, insert v s) :: rest else (k, s) :: ebAdd rest key v) tag
        = ebLookup ((k, s) :: rest) tag
      rw [if_neg hk]
      by_cases hkt : k = tag
      · subst hkt
        simp [ebLookup, List.find?]
      · have hbeq : (k == tag) = false := beq_eq_false_iff_ne.mpr hkt
        simp only [ebLookup, List.find?, hbeq]
        exact ih

lemma exists_cons_tok {e : List String} {rest : List (List String)} {tag key : Int}
    (hkey : tokInt e 0 = some key) (hne : tag ≠ key) :
    (∃ x ∈ e :: rest, tokInt x 0 = some tag) ↔ (∃ x ∈ rest, tokInt x 0 = some tag) := by
  constructor
  · rintro ⟨x, hx, ht⟩
    rcases List.mem_cons.mp hx with rfl | hmem
    · rw [hkey] at ht
      exact absurd (by injection ht with hh; exact hh.symm) hne
    · exact ⟨x, hmem, ht⟩
  · rintro ⟨x, hx, ht⟩
    exact ⟨x, List.mem_cons_of_mem _ hx, ht⟩

lemma exists_cons_tok' {e : List String} {rest : List (List String)} {tag key : Int}
    {P : List String → Prop} (hkey : tokInt e 0 = some key) (hne : tag ≠ key) :
    (∃ x ∈ e :: rest, tokInt x 0 = some tag ∧ P x) ↔
      (∃ x ∈ rest, tokInt x 0 = some tag ∧ P x) := by
  constructor
  · rintro ⟨x, hx, ht, hp⟩
    rcases List.mem_cons.mp hx with rfl | hmem
    · rw [hkey] at ht
      exact absurd (by injection ht with hh; exact hh.symm) hne
    · exact ⟨x, hmem, ht, hp⟩
  · rintro ⟨x, hx, ht, hp⟩
    exact ⟨x, List.mem_cons_of_mem _ hx, ht, hp⟩

lemma foldO_edgeStep_char :
    ∀ {edges : List (List String)} {acc ebs : List (Int × Finset Int)},
      foldO edgeStep acc edges = some ebs → ∀ tag : Int,
        ((∃ s, ebLookup ebs tag = some s) ↔
          ((∃ s, ebLookup acc tag = some s) ∨
            (100 < tag ∧ ∃ e ∈ edges, tokInt e 0 = some tag))) ∧
        (∀ s, ebLookup ebs tag = some s → ∀ v : Int,
          (v ∈ s ↔ ((∃ s0, ebLookup acc tag = some s0 ∧ v ∈ s0) ∨
            (100 < tag ∧ ∃ e ∈ edges, tokInt e 0 = some tag ∧
              (tokInt e 2 = some v ∨ tokInt e 3 = some v))))) := by
  intro edges
  induction edges with
  | nil =>
    intro acc ebs h tag
    rw [foldO_nil] at h
    simp only [Option.some.injEq] at h
    subst h
    constructor
    · simp
    · intro s hs v
      simp [hs]
  | cons e rest ih =>
    intro acc ebs h tag
    rw [foldO_cons] at h
    simp only [Option.bind_eq_some] at h
    obtain ⟨acc1, hstep, hrest⟩ := h
    rw [edgeStep_def] at hstep
    simp only [Option.bind_eq_some] at hstep
    obtain ⟨key, hkey, hbranch⟩ := hstep
    obtain ⟨ih1, ih2⟩ := ih hrest tag
    by_cases hk100 : key > 100
    · rw [if_pos hk100] at hbranch
      simp only [Option.bind_eq_some, Option.some.injEq] at hbranch
      obtain ⟨a, ha, b, hb, hacc1⟩ := hbranch
      subst hacc1
      by_cases htag : tag = key
      · subst htag
        have hlook1 : ebLookup (ebAdd (ebAdd acc tag a) tag b) tag
            = some (insert b (insert a ((ebLookup acc tag).getD ∅))) := by
          rw [ebLookup_ebAdd_self, ebLookup_ebAdd_self]
          rfl
        constructor
        · rw [ih1]
          constructor
          · intro _
            right
            exact ⟨hk100, e, List.mem_cons_self _ _, hkey⟩
          · intro _
            left
            exact ⟨_, hlook1⟩
        · intro s hs v
          rw [ih2 s hs v]
          simp only [hlook1, Option.some.injEq]
          constructor
          · rintro (⟨s0, hs0, hv⟩ | ⟨h100, e', he', ht0, hd⟩)
            · rw [← hs0] at hv
              rcases Finset.mem_insert.mp hv with rfl | hv2
              · right
                exact ⟨hk100, e, List.mem_cons_self _ _, hkey, Or.inr hb⟩
              · rcases Finset.mem_insert.mp hv2 with rfl | hv3
                · right
                  exact ⟨hk100, e, List.mem_cons_self _ _, hkey, Or.inl ha⟩
                · cases holdc : ebLookup acc tag with
                  | none => rw [holdc] at hv3; simp at hv3
                  | some sold =>
                    rw [holdc] at hv3
                    exact Or.inl ⟨sold, rfl, hv3⟩
            · right
              exact ⟨h100, e', List.mem_cons_of_mem _ he', ht0, hd⟩
          · rintro (⟨s0, hs0, hv⟩ | ⟨h100, e', he', ht0, hd⟩)
            · left
              refine ⟨insert b (insert a ((ebLookup acc tag).getD ∅)), rfl, ?_⟩
              apply Finset.mem_insert_of_mem
              apply Finset.mem_insert_of_mem
              rw [hs0]
              simpa using hv
            · rcases List.mem_cons.mp he' with rfl | hmem
              · left
                refine ⟨insert b (insert a ((ebLookup acc tag).getD ∅)), rfl, ?_⟩
                rw [hkey] at ht0
                rcases hd with hd2 | hd3
                · rw [ha] at hd2
                  have hva : v = a := by injection hd2 with hh; exact hh.symm
                  subst hva
                  exact Finset.mem_insert_of_mem (Finset.mem_insert_self _ _)
                · rw [hb] at hd3
                  have hvb : v = b := by injection hd3 with hh; exact hh.symm
                  subst hvb
                  exact Finset.mem_insert_self _ _
              · right
                exact ⟨h100, e', hmem, ht0, hd⟩
      · have hlookne : ebLookup (ebAdd (ebAdd acc key a) key b) tag = ebLookup acc tag := by
          rw [ebLookup_ebAdd_ne _ _ _ _ htag, ebLookup_ebAdd_ne _ _ _ _ htag]
        constructor
        · rw [ih1, hlookne, exists_cons_tok hkey htag]
        · intro s hs v
          rw [ih2 s hs v, hlookne, exists_cons_tok' hkey htag]
    · rw [if_neg hk100] at hbranch
      simp only [Option.some.injEq] at hbranch
      subst hbranch
      have hne : ∀ h100 : 100 < tag, tag ≠ key := by
        intro h100 hcon
        rw [hcon] at h100
        exact hk100 h100
      constructor
      · rw [ih1]
        constructor
        · rintro (h' | ⟨h100, hex⟩)
          · left; exact h'
          · right
            exact ⟨h100, ((exists_cons_tok hkey (hne h100)).mpr hex).imp
              (fun x => id)⟩
        · rintro (h' | ⟨h100, hex⟩)
          · left; exact h'
          · right
            exact ⟨h100, (exists_cons_tok hkey (hne h100)).mp hex⟩
      · intro s hs v
        rw [ih2 s hs v]
        constructor
        · rintro (h' | ⟨h100, hex⟩)
          · left; exact h'
          · right
            exact ⟨h100, (exists_cons_tok' hkey (hne h100)).mpr hex⟩
        · rintro (h' | ⟨h100, hex⟩)
          · left; exact h'
          · right
            exact ⟨h100, (exists_cons_tok' hkey (hne h100)).mp hex⟩

/-- C4: in the boundary extraction of `read_mesh` (also feeding the
`Nedge<tag>` sets of the node deck), an edge record contributes its 3rd and 4th
tokens to the set keyed by its 1st token exactly when that tag exceeds 100: a
tag has a set iff it exceeds 100 and heads some record, and the set for a tag
is exactly the union of the two trailing node references over all records
carrying that tag; no tag below or at 100 ever produces a set. -/
theorem c4_edge_boundaries (edges : List (List String)) (ebs : List (Int × Finset Int))
    (h : edgeBoundaries edges = some ebs) (tag : Int) :
    ((∃ s, ebLookup ebs tag = some s) ↔
      (100 < tag ∧ ∃ e ∈ edges, tokInt e 0 = some tag)) ∧
    (∀ s, ebLookup ebs tag = some s → ∀ v : Int,
      (v ∈ s ↔ ∃ e ∈ edges, tokInt e 0 = some tag ∧
        (tokInt e 2 = some v ∨ tokInt e 3 = some v))) := by
  obtain ⟨h1, h2⟩ := foldO_edgeStep_char h tag
  constructor
  · rw [h1]
    simp [ebLookup_nil]
  · intro s hs v
    have h100 : 100 < tag := by
      rcases h1.mp ⟨s, hs⟩ with ⟨s0, hs0⟩ | ⟨h100, _⟩
      · rw [ebLookup_nil] at hs0
        exact Option.noConfusion hs0
      · exact h100
    rw [h2 s hs v]
    simp only [ebLookup_nil]
    constructor
    · rintro (⟨s0, hs0, _⟩ | ⟨_, hex⟩)
      · exact Option.noConfusion hs0
      · exact hex
    · intro hex
      right
      exact ⟨h100, hex⟩

/-- Witness for C4: from three concrete edge records — two with tag 150, one
with tag 7 — tag 150 produces a set and tag 7 produces none. -/
theorem c4_edge_boundaries_witness :
    ∃ ebs, edgeBoundaries [["150", "9", "3", "4"], ["150", "9", "4", "5"], ["7", "0", "1", "2"]]
        = some ebs ∧ (∃ s, ebLookup ebs 150 = some s) ∧ ∀ s, ebLookup ebs 7 ≠ some s := by
  have hsome : (edgeBoundaries
      [["150", "9", "3", "4"], ["150", "9", "4", "5"], ["7", "0", "1", "2"]]).isSome = true := by
    decide
  obtain ⟨ebs, hebs⟩ := Option.isSome_iff_exists.mp hsome
  have h150 := c4_edge_boundaries _ ebs hebs 150
  have h7 := c4_edge_boundaries _ ebs hebs 7
  refine ⟨ebs, hebs, ?_, ?_⟩
  · exact h150.1.mpr ⟨by decide, ["150", "9", "3", "4"], by decide, by decide⟩
  · intro s hs
    exact absurd (h7.1.mp ⟨s, hs⟩).1 (by decide)

end Mesh2Inp
